import Mathlib

/-!
Shallow embedding of `src/inverted_index.py` (inverted-index builder).

Python strings are modelled as `List Char`; documents, lines and terms are
all such lists.  Machine integers of the source are `Nat` (document ids,
term frequencies, byte counters never go negative and Python ints are
unbounded, so no modular wrap is involved).  Fallible I/O is out of scope:
the embedding models the data transformation each phase performs on the
in-memory contents of its files.

Functions that the source writes with unbounded loops are embedded with an
explicit fuel argument equal to an a-priori bound on the number of
iterations (input length, or total number of buffered records); lemmas
show the fuel bound is sufficient, and the fuel form keeps every
definition computable by kernel reduction.
-/

namespace InvIdx

/-- Characters strings of the Python source: a string is its list of
Unicode code points. -/
abbrev Str := List Char

/-- Python `str.lower` restricted to the code points that can appear in a
token of `TOKEN_RE` (ASCII letters and the Latin-1 letters `À`-`ÿ`):
uppercase ASCII `A`-`Z` (65-90), `À`-`Ö` (192-214) and `Ø`-`Þ` (216-222)
map 32 code points up; every other character in the class (lowercase
letters, `ß`, digits, apostrophe) is unchanged, exactly as in Python. -/
def toLowerCh (c : Char) : Char :=
  if 65 ≤ c.toNat ∧ c.toNat ≤ 90 then Char.ofNat (c.toNat + 32)
  else if 192 ≤ c.toNat ∧ c.toNat ≤ 214 then Char.ofNat (c.toNat + 32)
  else if 216 ≤ c.toNat ∧ c.toNat ≤ 222 then Char.ofNat (c.toNat + 32)
  else c

/-- The character class of `TOKEN_RE = [A-Za-zÀ-ÖØ-öø-ÿ0-9']` from
`src/inverted_index.py` line 5: ASCII letters, digits, the apostrophe
(code point 39), and the Latin-1 ranges 192-214, 216-246, 248-255. -/
def isTokChar (c : Char) : Bool :=
  decide ((65 ≤ c.toNat ∧ c.toNat ≤ 90) ∨ (97 ≤ c.toNat ∧ c.toNat ≤ 122) ∨
    (48 ≤ c.toNat ∧ c.toNat ≤ 57) ∨ c.toNat = 39 ∨
    (192 ≤ c.toNat ∧ c.toNat ≤ 214) ∨ (216 ≤ c.toNat ∧ c.toNat ≤ 246) ∨
    (248 ≤ c.toNat ∧ c.toNat ≤ 255))

/-- Left-to-right scan underlying `tokenize` (`re.finditer` of a
character-class regex yields exactly the maximal runs of class characters,
left to right, and the source lowercases each match).  Fuel bounds the
number of consumed characters; `tokenize` instantiates it with the input
length, which suffices since every step consumes at least one character. -/
def tokenizeF : Nat → Str → List Str
  | 0, _ => []
  | _ + 1, [] => []
  | fuel + 1, c :: cs =>
    if isTokChar c then
      ((c :: cs.takeWhile isTokChar).map toLowerCh) ::
        tokenizeF fuel (cs.dropWhile isTokChar)
    else tokenizeF fuel cs

/-- `tokenize` of `src/inverted_index.py` lines 7-9: the maximal runs of
`TOKEN_RE` characters, each lowercased, in order of occurrence. -/
def tokenize (s : Str) : List Str := tokenizeF s.length s

/-- The Unicode letters of the Latin-1 range U+0000 - U+00FF, from the
Unicode character database: `A`-`Z`, `a`-`z`, `ª` (170), `µ` (181),
`º` (186), `À`-`Ö`, `Ø`-`ö`, `ø`-`ÿ` (the ranges exclude `×` 215 and
`÷` 247, which are symbols).  Used only to state the specification's
tokenizer on Latin-1 inputs; code points above U+00FF are not classified
(the refutation below stays inside Latin-1). -/
def latin1Letter (c : Char) : Bool :=
  decide ((65 ≤ c.toNat ∧ c.toNat ≤ 90) ∨ (97 ≤ c.toNat ∧ c.toNat ≤ 122) ∨
    c.toNat = 170 ∨ c.toNat = 181 ∨ c.toNat = 186 ∨
    (192 ≤ c.toNat ∧ c.toNat ≤ 214) ∨ (216 ≤ c.toNat ∧ c.toNat ≤ 246) ∨
    (248 ≤ c.toNat ∧ c.toNat ≤ 255))

/-- Token characters as the specification words them: Unicode letters,
digits, and apostrophes (restricted to the Latin-1 range, where the
Unicode letter table is `latin1Letter`). -/
def specTokChar (c : Char) : Bool :=
  latin1Letter c || decide ((48 ≤ c.toNat ∧ c.toNat ≤ 57) ∨ c.toNat = 39)

/-- The tokenizer exactly as the specification describes it (maximal runs
of Unicode letters / digits / apostrophes, lowercased), for comparison
with the source's `tokenize`.  Same scanner shape, spec character class. -/
def specTokenizeF : Nat → Str → List Str
  | 0, _ => []
  | _ + 1, [] => []
  | fuel + 1, c :: cs =>
    if specTokChar c then
      ((c :: cs.takeWhile specTokChar).map toLowerCh) ::
        specTokenizeF fuel (cs.dropWhile specTokChar)
    else specTokenizeF fuel cs

/-- Spec-side tokenizer at full fuel. -/
def specTokenize (s : Str) : List Str := specTokenizeF s.length s

/-- Independent right-fold formulation of splitting a string at delimiter
characters (`tokc c = false`): the list of (possibly empty) fields between
delimiters.  Used to characterize `tokenize` without a left-to-right
scanner. -/
def fieldsBy (tokc : Char → Bool) : Str → List Str
  | [] => [[]]
  | c :: cs =>
    match fieldsBy tokc cs with
    | [] => [[]]
    | g :: gs => if tokc c then (c :: g) :: gs else [] :: g :: gs

/-- The fields of `fieldsBy` that follow the first delimiter of `cs`
(empty when `cs` has no delimiter). -/
def restFields (tokc : Char → Bool) (cs : Str) : List Str :=
  match cs.dropWhile tokc with
  | [] => []
  | _ :: r => fieldsBy tokc r

/-- One record of the index: a `(term, doc_id, term_frequency)` triple as
written to chunk and shard files. -/
structure Row where
  term : Str
  doc : Nat
  tf : Nat
deriving DecidableEq, Repr

/-- Decimal digit count, fuel form (fuel `n` suffices since `n / 10 < n`
for `n ≥ 10`). -/
def decLenF : Nat → Nat → Nat
  | 0, _ => 1
  | fuel + 1, n => if n < 10 then 1 else decLenF fuel (n / 10) + 1

/-- Number of characters of `str(n)` for a natural `n`. -/
def decLen (n : Nat) : Nat := decLenF n n

/-- The per-record size accounting of the shard writer,
`len(term) + len(str(doc)) + len(str(tf)) + 3` (two tabs and a newline),
from `src/inverted_index.py` line 66. -/
def recSize (r : Row) : Nat := r.term.length + decLen r.doc + decLen r.tf + 3

/-- First occurrences of each distinct element, in order (the key order of
a Python `Counter` / dict built by insertion).  Fuel form; the filtered
tail is never longer than the tail. -/
def firstOccsF : Nat → List Str → List Str
  | 0, _ => []
  | _ + 1, [] => []
  | fuel + 1, t :: ts => t :: firstOccsF fuel (ts.filter (fun u => decide (u ≠ t)))

/-- First occurrences at full fuel. -/
def firstOccs (ts : List Str) : List Str := firstOccsF ts.length ts

/-- `Counter(tokens)` as an association list: each distinct token in first
occurrence order, with its multiplicity. -/
def countTok (ts : List Str) : List (Str × Nat) :=
  (firstOccs ts).map (fun t => (t, ts.count t))

/-- The `(term, doc_id, tf)` rows contributed by one document: one row per
distinct token of its text.  In `map_count_docs` the rows of a batch end
up in a nested dict; since doc ids in one batch are distinct, the entry
`postings[term][did]` is written exactly once, with value `tf`. -/
def docRows (txt : Str) (did : Nat) : List Row :=
  (countTok (tokenize txt)).map (fun p => ⟨p.1, did, p.2⟩)

/-- `map_count_docs` of `src/inverted_index.py` lines 11-23, flattened:
walks the batch in order with a running doc id; an empty text is skipped
(`if not txt`) but still advances the id; returns the rows together with
`len(doc_texts)`.  The source accumulates the rows into a dict whose
enumeration order differs from this doc-major order, but the spiller
sorts the rows by their (within one batch unique) `(term, doc)` key, so
every downstream value is unchanged by this choice of pre-sort order. -/
def map_count_docs : List Str → Nat → List Row × Nat
  | [], _ => ([], 0)
  | txt :: rest, did =>
    let r := map_count_docs rest (did + 1)
    if txt = [] then (r.1, r.2 + 1)
    else (docRows txt did ++ r.1, r.2 + 1)

/-- Python string `<` : lexicographic comparison by code point. -/
def strLtb : Str → Str → Bool
  | _, [] => false
  | [], _ :: _ => true
  | a :: as, b :: bs => if a < b then true else if b < a then false else strLtb as bs

/-- The sort / merge key order on rows, `(term, doc_id)` —
term lexicographically, then doc id numerically (non-strict). -/
def k2LEb (a b : Row) : Bool :=
  if strLtb a.term b.term then true
  else if strLtb b.term a.term then false
  else decide (a.doc ≤ b.doc)

/-- Stable insertion of a row into a `(term, doc)`-sorted list: the new
row goes in front of the first element it is `≤` to, hence behind every
strictly smaller element and behind no equal one — the placement of a
stable sort, matching Python's `list.sort(key=(term, doc))`. -/
def insertRow (r : Row) : List Row → List Row
  | [] => [r]
  | x :: xs => if k2LEb r x then r :: x :: xs else x :: insertRow r xs

/-- Stable insertion sort by `(term, doc)`. -/
def sortRows : List Row → List Row
  | [] => []
  | r :: rs => insertRow r (sortRows rs)

/-- `spill_sorted_chunk` of `src/inverted_index.py` lines 25-35, on the
flattened rows of one batch: sort by `(term, doc_id)` and record the row
count (the file path is identified with the run's position). -/
def spill_sorted_chunk (rows : List Row) : List Row × Nat :=
  (sortRows rows, rows.length)

/-- One element of the merge heap: the run's current head row, the run
index `src` (position of the chunk in `chunk_paths`), and the not yet
consumed remainder of the run (standing for the generator `it`). -/
structure Entry where
  row : Row
  src : Nat
  rest : List Row
deriving DecidableEq, Repr

/-- The comparable prefix of a heap element,
`(term, doc, tf, src)` — everything before the generator. -/
def key4 (e : Entry) : Str × Nat × Nat × Nat :=
  (e.row.term, e.row.doc, e.row.tf, e.src)

/-- Python tuple `≤` on heap elements, restricted to the first four
components `(term, doc, tf, src)`.  The fifth tuple component (the
generator) is never inspected: with distinct `src` the comparison is
always decided at or before the fourth component, which is what makes
`heapq` safe in the source. -/
def k4LEb (a b : Entry) : Bool :=
  if strLtb a.row.term b.row.term then true
  else if strLtb b.row.term a.row.term then false
  else if a.row.doc < b.row.doc then true
  else if b.row.doc < a.row.doc then false
  else if a.row.tf < b.row.tf then true
  else if b.row.tf < a.row.tf then false
  else decide (a.src ≤ b.src)

/-- `heapq.heappop` on a heap with a total order: removes and returns the
minimum element (leftmost among `k4LEb`-ties; ties are impossible in the
source because `src` is distinct).  The heap is modelled as the list of
its elements — `heapq` maintains a binary-heap arrangement of the same
multiset with the same pop result. -/
def popMin : List Entry → Option (Entry × List Entry)
  | [] => none
  | e :: es =>
    match popMin es with
    | none => some (e, es)
    | some (m, r) => if k4LEb e m then some (e, es) else some (m, e :: r)

/-- After popping `e`, advance `e`'s run: push the successor entry (same
`src`, remaining rows) unless the run is exhausted
(`src/inverted_index.py` lines 68-72). -/
def stepHeap (e : Entry) (rest : List Entry) : List Entry :=
  match e.rest with
  | [] => rest
  | r :: rs => rest ++ [⟨r, e.src, rs⟩]

/-- Total number of rows buffered in the heap (head + remainder per
entry); decreases by exactly one per merge iteration. -/
def weight (h : List Entry) : Nat :=
  (h.map (fun e => e.rest.length + 1)).sum

/-- The merge loop of `src/inverted_index.py` lines 62-72, emission
sequence only: pop the minimum, emit its row, advance its run.  Fuel
bounds the iteration count; `weight h` suffices exactly. -/
def mergeRowsF : Nat → List Entry → List Row
  | 0, _ => []
  | fuel + 1, h =>
    match popMin h with
    | none => []
    | some (e, r) => e.row :: mergeRowsF fuel (stepHeap e r)

/-- The globally merged row sequence produced from a heap. -/
def mergeRows (h : List Entry) : List Row := mergeRowsF (weight h) h

/-- Pair the elements of a list with consecutive indices starting at `n`. -/
def withIds {α : Type} (n : Nat) : List α → List (Nat × α)
  | [] => []
  | a :: as => (n, a) :: withIds (n + 1) as

/-- Initial heap of `src/inverted_index.py` lines 46-54: one entry per
non-empty run, holding its first row and its index in `chunk_paths`. -/
def initHeap (runs : List (List Row)) : List Entry :=
  (withIds 0 runs).filterMap (fun p =>
    match p.2 with
    | [] => none
    | r :: rs => some ⟨r, p.1, rs⟩)

/-- The shard writer state machine of `src/inverted_index.py` lines
56-80, applied to the emitted row sequence (the source interleaves it
with the heap loop, but its state — current shard contents, running
size, finished shards — depends only on the rows already emitted, in
order): append the row to the current shard, add its size, and when the
running size reaches the threshold close the shard and start a new,
empty one.  The final (possibly empty) shard is closed at the end. -/
def shardGo (thr : Nat) (cur : List Row) (sz : Nat) : List Row → List (List Row)
  | [] => [cur]
  | r :: rs =>
    if thr ≤ sz + recSize r then (cur ++ [r]) :: shardGo thr [] 0 rs
    else shardGo thr (cur ++ [r]) (sz + recSize r) rs

/-- `merge_sorted_chunks` of `src/inverted_index.py` lines 37-84: runs are
given by contents (index in the list = index in `chunk_paths`); returns
the shard contents (index in the list = shard file index), the record
count, and `shard_idx + 1` — which equals the number of shard files
opened, i.e. the length of the shard list. -/
def merge_sorted_chunks (runs : List (List Row)) (shard_mb : Nat) :
    List (List Row) × Nat × Nat :=
  let rows := mergeRows (initHeap runs)
  let shards := shardGo (shard_mb * 1024 * 1024) [] 0 rows
  (shards, rows.length, shards.length)

/-- The document segmenter alone (`src/inverted_index.py` lines 108-121
with the batching stripped): accumulate lines in `line_buf`; after each
line, if the buffer has reached `lines_per_doc` lines, concatenate it
into one document; a non-empty trailing buffer becomes a final partial
document. -/
def segOnly (lpd : Nat) (buf : List Str) : List Str → List Str
  | [] => if buf = [] then [] else [buf.flatten]
  | l :: ls =>
    if lpd ≤ (buf ++ [l]).length then (buf ++ [l]).flatten :: segOnly lpd [] ls
    else segOnly lpd (buf ++ [l]) ls

/-- The segmenting-and-batching loop of `build_inverted_index`
(`src/inverted_index.py` lines 101-125): lines accumulate in `line_buf`;
each completed group of `lines_per_doc` lines joins into a document
appended to `doc_buf`; when `doc_buf` reaches `batch_docs` documents it is
flushed as a batch paired with `next_doc_id`, which then advances by the
batch size; after the loop a non-empty `line_buf` becomes a last partial
document and a non-empty `doc_buf` a last batch. -/
def batchLoop (lpd bd : Nat) (lineBuf : List Str) (docBuf : List Str)
    (nextId : Nat) : List Str → List (List Str × Nat)
  | [] =>
    let docBuf2 := if lineBuf = [] then docBuf else docBuf ++ [lineBuf.flatten]
    if docBuf2 = [] then [] else [(docBuf2, nextId)]
  | l :: ls =>
    if lpd ≤ (lineBuf ++ [l]).length then
      if bd ≤ (docBuf ++ [(lineBuf ++ [l]).flatten]).length then
        (docBuf ++ [(lineBuf ++ [l]).flatten], nextId) ::
          batchLoop lpd bd [] [] (nextId + (docBuf ++ [(lineBuf ++ [l]).flatten]).length) ls
      else batchLoop lpd bd [] (docBuf ++ [(lineBuf ++ [l]).flatten]) nextId ls
    else batchLoop lpd bd (lineBuf ++ [l]) docBuf nextId ls

/-- All documents of a batch list with their assigned ids (batch start id
plus offset within the batch). -/
def docsWithIds (batches : List (List Str × Nat)) : List (Nat × Str) :=
  (batches.map (fun b => withIds b.2 b.1)).flatten

/-- `build_inverted_index` of `src/inverted_index.py` lines 86-134, data
path: segment and batch the input lines, map and spill each batch into a
sorted run, and merge the runs into shards.  Runs are listed in batch
order; the source spills them in `as_completed` (arbitrary) order, which
permutes `chunk_paths` but not the multiset of records fed to the
merge. -/
def build_inverted_index (lpd bd shard_mb : Nat) (lines : List Str) :
    List (List Row) × Nat × Nat :=
  let batches := batchLoop lpd bd [] [] 0 lines
  let runs := batches.map (fun b => (spill_sorted_chunk (map_count_docs b.1 b.2).1).1)
  merge_sorted_chunks runs shard_mb

/-- Spec-side reference segmentation: the groups of `k` consecutive lines,
in order, the last group possibly partial ("group every `lines_per_doc`
consecutive lines into one document"). -/
def chunksOf (k : Nat) : List Str → List (List Str)
  | [] => []
  | l :: ls => (l :: ls.take (k - 1)) :: chunksOf k (ls.drop (k - 1))
  termination_by ls => ls.length
  decreasing_by simp [List.length_drop]; omega

/-- Spec-side single-threaded reference of claim C1: segment the lines
into documents, tokenize each document independently, count its term
frequencies directly, and emit one `(term, doc_id, tf)` row per distinct
term, doc ids dense from 0 in input order. -/
def referenceRows (lpd : Nat) (lines : List Str) : List Row :=
  ((withIds 0 ((chunksOf lpd lines).map List.flatten)).map
    (fun p => docRows p.2 p.1)).flatten

/-- Rows held anywhere in a heap (current heads and run remainders). -/
def allRows (h : List Entry) : List Row :=
  (h.map (fun e => e.row :: e.rest)).flatten

/-- The `(term, doc_id)` key order as a proposition (`abbrev` so that
decidability is definitional). -/
abbrev rowle (a b : Row) : Prop := k2LEb a b = true

/-- Size of a shard's contents under the writer's accounting. -/
def sizeSum (s : List Row) : Nat := (s.map recSize).sum

/-- Paths touched by one successful `build_inverted_index` run: the output
directory, the temporary directory, chunk (run) files by index, shard
files by index, and the summary file. -/
inductive FPath where
  | outDir : FPath
  | tmpDir : FPath
  | chunk : Nat → FPath
  | shard : Nat → FPath
  | summary : FPath
deriving DecidableEq, Repr

/-- Filesystem creation: the path now exists. -/
def fsCreate (p : FPath) (fs : List FPath) : List FPath := fs ++ [p]

/-- Filesystem removal (`os.remove` / `os.rmdir`): the path is erased. -/
def fsRemove (p : FPath) (fs : List FPath) : List FPath := fs.erase p

/-- The sequence of filesystem effects of a successful
`build_inverted_index` run with `nRuns` spilled chunks and `nShards`
shard files (`src/inverted_index.py` lines 87-88, 130, 56-78, 136-140,
145-146): create the output dir and the temp dir, create each chunk file,
create each shard file, then remove every chunk file, remove the temp
dir, and write the summary.  The source removes the chunks in
`chunk_paths` (completion) order; removals of distinct paths commute, so
index order is taken. -/
def buildFsTrace (nRuns nShards : Nat) : List FPath :=
  let s2 := fsCreate .tmpDir (fsCreate .outDir [])
  let s3 := (List.range nRuns).foldl (fun fs i => fsCreate (.chunk i) fs) s2
  let s4 := (List.range nShards).foldl (fun fs i => fsCreate (.shard i) fs) s3
  let s5 := (List.range nRuns).foldl (fun fs i => fsRemove (.chunk i) fs) s4
  fsCreate .summary (fsRemove .tmpDir s5)

/-! ### Order lemmas for the comparison keys -/

theorem strLtb_irrefl : ∀ s : Str, strLtb s s = false
  | [] => rfl
  | c :: cs => by simp [strLtb, lt_irrefl, strLtb_irrefl cs]

theorem strLtb_trans :
    ∀ a b c : Str, strLtb a b = true → strLtb b c = true → strLtb a c = true := by
  intro a
  induction a with
  | nil =>
    intro b c h1 h2
    cases c with
    | nil => cases b <;> simp [strLtb] at h2
    | cons c0 cs => simp [strLtb]
  | cons a0 as ih =>
    intro b c h1 h2
    cases b with
    | nil => simp [strLtb] at h1
    | cons b0 bs =>
      cases c with
      | nil => simp [strLtb] at h2
      | cons c0 cs =>
        simp only [strLtb] at h1 h2 ⊢
        rcases lt_trichotomy a0 b0 with hab | hab | hab
        · rcases lt_trichotomy b0 c0 with hbc | hbc | hbc
          · simp [lt_trans hab hbc]
          · subst hbc; simp [hab]
          · simp [hbc, asymm hbc] at h2
        · subst hab
          rcases lt_trichotomy a0 c0 with hac | hac | hac
          · simp [hac]
          · subst hac
            simp [lt_irrefl] at h1 h2 ⊢
            exact ih bs cs h1 h2
          · simp [hac, asymm hac] at h2
        · simp [hab, asymm hab] at h1

theorem strLtb_conn :
    ∀ a b : Str, strLtb a b = false → strLtb b a = false → a = b := by
  intro a
  induction a with
  | nil =>
    intro b h1 _
    cases b with
    | nil => rfl
    | cons b0 bs => simp [strLtb] at h1
  | cons a0 as ih =>
    intro b h1 h2
    cases b with
    | nil => simp [strLtb] at h2
    | cons b0 bs =>
      simp only [strLtb] at h1 h2
      rcases lt_trichotomy a0 b0 with hab | hab | hab
      · simp [hab] at h1
      · subst hab
        simp [lt_irrefl] at h1 h2
        exact congrArg (a0 :: ·) (ih bs h1 h2)
      · simp [hab] at h2

theorem strLtb_asymm {a b : Str} (h : strLtb a b = true) : strLtb b a = false := by
  by_contra hc
  have hba : strLtb b a = true := by
    cases hx : strLtb b a with
    | false => exact absurd hx hc
    | true => rfl
  have := strLtb_trans a b a h hba
  simp [strLtb_irrefl] at this

theorem k2LEb_iff {a b : Row} :
    k2LEb a b = true ↔
      strLtb a.term b.term = true ∨ (a.term = b.term ∧ a.doc ≤ b.doc) := by
  unfold k2LEb
  split
  · rename_i h1
    simp [h1]
  · rename_i h1
    have h1f : strLtb a.term b.term = false := by simpa using h1
    split
    · rename_i h2
      simp only [Bool.false_eq_true, false_iff]
      intro h
      rcases h with h | ⟨he, _⟩
      · simp [h1f] at h
      · rw [he] at h2
        simp [strLtb_irrefl] at h2
    · rename_i h2
      have h2f : strLtb b.term a.term = false := by simpa using h2
      have he := strLtb_conn _ _ h1f h2f
      simp [he, h1f, strLtb_irrefl]

theorem k2LEb_refl (a : Row) : k2LEb a a = true := by
  rw [k2LEb_iff]; exact Or.inr ⟨rfl, le_refl _⟩

theorem k2LEb_trans {a b c : Row} (h1 : k2LEb a b = true) (h2 : k2LEb b c = true) :
    k2LEb a c = true := by
  rw [k2LEb_iff] at h1 h2 ⊢
  rcases h1 with h1 | ⟨he1, hd1⟩
  · rcases h2 with h2 | ⟨he2, _⟩
    · exact Or.inl (strLtb_trans _ _ _ h1 h2)
    · exact Or.inl (he2 ▸ h1)
  · rcases h2 with h2 | ⟨he2, hd2⟩
    · exact Or.inl (he1 ▸ h2)
    · exact Or.inr ⟨he1.trans he2, hd1.trans hd2⟩

theorem k2LEb_total (a b : Row) : k2LEb a b = true ∨ k2LEb b a = true := by
  rw [k2LEb_iff, k2LEb_iff]
  cases hab : strLtb a.term b.term with
  | true => exact Or.inl (Or.inl rfl)
  | false =>
    cases hba : strLtb b.term a.term with
    | true => exact Or.inr (Or.inl rfl)
    | false =>
      have he := strLtb_conn _ _ hab hba
      rcases Nat.le_total a.doc b.doc with hd | hd
      · exact Or.inl (Or.inr ⟨he, hd⟩)
      · exact Or.inr (Or.inr ⟨he.symm, hd⟩)

theorem k4LEb_iff {a b : Entry} :
    k4LEb a b = true ↔
      strLtb a.row.term b.row.term = true ∨
        (a.row.term = b.row.term ∧
          (a.row.doc < b.row.doc ∨
            (a.row.doc = b.row.doc ∧
              (a.row.tf < b.row.tf ∨
                (a.row.tf = b.row.tf ∧ a.src ≤ b.src))))) := by
  unfold k4LEb
  split
  · rename_i h1
    simp [h1]
  · rename_i h1
    have h1f : strLtb a.row.term b.row.term = false := by simpa using h1
    split
    · rename_i h2
      simp only [Bool.false_eq_true, false_iff]
      intro h
      rcases h with h | ⟨he, _⟩
      · simp [h1f] at h
      · rw [he] at h2
        simp [strLtb_irrefl] at h2
    · rename_i h2
      have h2f : strLtb b.row.term a.row.term = false := by simpa using h2
      have he := strLtb_conn _ _ h1f h2f
      simp only [he, strLtb_irrefl, Bool.false_eq_true, false_or, true_and]
      split_ifs with hd1 hd2 hf1 hf2 <;> simp <;> omega

theorem k4LEb_refl (a : Entry) : k4LEb a a = true := by
  rw [k4LEb_iff]
  exact Or.inr ⟨rfl, Or.inr ⟨rfl, Or.inr ⟨rfl, le_refl _⟩⟩⟩

theorem k4LEb_trans {a b c : Entry} (h1 : k4LEb a b = true)
    (h2 : k4LEb b c = true) : k4LEb a c = true := by
  rw [k4LEb_iff] at h1 h2 ⊢
  rcases h1 with h1 | ⟨he1, hd1⟩
  · rcases h2 with h2 | ⟨he2, _⟩
    · exact Or.inl (strLtb_trans _ _ _ h1 h2)
    · exact Or.inl (he2 ▸ h1)
  · rcases h2 with h2 | ⟨he2, hd2⟩
    · exact Or.inl (he1 ▸ h2)
    · refine Or.inr ⟨he1.trans he2, ?_⟩
      rcases hd1 with hd1 | ⟨hde1, hf1⟩ <;> rcases hd2 with hd2 | ⟨hde2, hf2⟩
      · exact Or.inl (hd1.trans hd2)
      · exact Or.inl (hde2 ▸ hd1)
      · exact Or.inl (hde1 ▸ hd2)
      · refine Or.inr ⟨hde1.trans hde2, ?_⟩
        rcases hf1 with hf1 | ⟨hfe1, hs1⟩ <;> rcases hf2 with hf2 | ⟨hfe2, hs2⟩
        · exact Or.inl (hf1.trans hf2)
        · exact Or.inl (hfe2 ▸ hf1)
        · exact Or.inl (hfe1 ▸ hf2)
        · exact Or.inr ⟨hfe1.trans hfe2, hs1.trans hs2⟩

theorem k4LEb_total (a b : Entry) : k4LEb a b = true ∨ k4LEb b a = true := by
  rw [k4LEb_iff, k4LEb_iff]
  cases hab : strLtb a.row.term b.row.term with
  | true => exact Or.inl (Or.inl rfl)
  | false =>
    cases hba : strLtb b.row.term a.row.term with
    | true => exact Or.inr (Or.inl rfl)
    | false =>
      have he := strLtb_conn _ _ hab hba
      rcases Nat.lt_trichotomy a.row.doc b.row.doc with hd | hd | hd
      · exact Or.inl (Or.inr ⟨he, Or.inl hd⟩)
      · rcases Nat.lt_trichotomy a.row.tf b.row.tf with hf | hf | hf
        · exact Or.inl (Or.inr ⟨he, Or.inr ⟨hd, Or.inl hf⟩⟩)
        · rcases Nat.le_total a.src b.src with hs | hs
          · exact Or.inl (Or.inr ⟨he, Or.inr ⟨hd, Or.inr ⟨hf, hs⟩⟩⟩)
          · exact Or.inr (Or.inr ⟨he.symm, Or.inr ⟨hd.symm, Or.inr ⟨hf.symm, hs⟩⟩⟩)
        · exact Or.inr (Or.inr ⟨he.symm, Or.inr ⟨hd.symm, Or.inl hf⟩⟩)
      · exact Or.inr (Or.inr ⟨he.symm, Or.inl hd⟩)

theorem k2LEb_of_k4LEb {a b : Entry} (h : k4LEb a b = true) :
    k2LEb a.row b.row = true := by
  rw [k4LEb_iff] at h
  rw [k2LEb_iff]
  rcases h with h | ⟨he, hd⟩
  · exact Or.inl h
  · refine Or.inr ⟨he, ?_⟩
    rcases hd with hd | ⟨hde, _⟩
    · exact Nat.le_of_lt hd
    · exact Nat.le_of_eq hde

/-! ### Heap extraction -/

theorem popMin_eq_none {h : List Entry} (hp : popMin h = none) : h = [] := by
  cases h with
  | nil => rfl
  | cons e es =>
    rcases hm : popMin es with _ | ⟨m, rr⟩
    · simp [popMin, hm] at hp
    · by_cases hle : k4LEb e m = true
      · simp [popMin, hm, hle] at hp
      · simp [popMin, hm, hle] at hp

theorem popMin_perm :
    ∀ {h : List Entry} {e : Entry} {r : List Entry},
      popMin h = some (e, r) → h.Perm (e :: r) := by
  intro h
  induction h with
  | nil => intro e r hp; simp [popMin] at hp
  | cons a as ih =>
    intro e r hp
    rcases hm : popMin as with _ | ⟨m, rr⟩
    · have : as = [] := popMin_eq_none hm
      subst this
      simp only [popMin] at hp
      simp only [Option.some.injEq, Prod.mk.injEq] at hp
      rw [← hp.1, ← hp.2]
    · by_cases hle : k4LEb a m = true
      · simp only [popMin, hm] at hp
        rw [if_pos hle] at hp
        simp only [Option.some.injEq, Prod.mk.injEq] at hp
        rw [← hp.1, ← hp.2]
      · simp only [popMin, hm] at hp
        rw [if_neg hle] at hp
        simp only [Option.some.injEq, Prod.mk.injEq] at hp
        rw [← hp.1, ← hp.2]
        exact (List.Perm.cons a (ih hm)).trans (List.Perm.swap m a rr)

theorem popMin_min :
    ∀ {h : List Entry} {e : Entry} {r : List Entry},
      popMin h = some (e, r) → ∀ f ∈ h, k4LEb e f = true := by
  intro h
  induction h with
  | nil => intro e r hp; simp [popMin] at hp
  | cons a as ih =>
    intro e r hp f hf
    rcases hm : popMin as with _ | ⟨m, rr⟩
    · have : as = [] := popMin_eq_none hm
      subst this
      simp only [popMin] at hp
      simp only [Option.some.injEq, Prod.mk.injEq] at hp
      simp only [List.mem_singleton] at hf
      rw [← hp.1, hf]
      exact k4LEb_refl a
    · by_cases hle : k4LEb a m = true
      · simp only [popMin, hm] at hp
        rw [if_pos hle] at hp
        simp only [Option.some.injEq, Prod.mk.injEq] at hp
        rw [← hp.1]
        rcases List.mem_cons.mp hf with hfa | hfas
        · rw [hfa]; exact k4LEb_refl a
        · exact k4LEb_trans hle (ih hm f hfas)
      · have hma : k4LEb m a = true := by
          rcases k4LEb_total a m with hx | hx
          · exact absurd hx hle
          · exact hx
        simp only [popMin, hm] at hp
        rw [if_neg hle] at hp
        simp only [Option.some.injEq, Prod.mk.injEq] at hp
        rw [← hp.1]
        rcases List.mem_cons.mp hf with hfa | hfas
        · rw [hfa]; exact hma
        · exact ih hm f hfas

theorem popMin_mem {h : List Entry} {e : Entry} {r : List Entry}
    (hp : popMin h = some (e, r)) : e ∈ h :=
  (popMin_perm hp).mem_iff.mpr (List.mem_cons_self e r)

theorem popMin_rest_subset {h : List Entry} {e : Entry} {r : List Entry}
    (hp : popMin h = some (e, r)) : ∀ f ∈ r, f ∈ h := by
  intro f hf
  exact (popMin_perm hp).mem_iff.mpr (List.mem_cons_of_mem e hf)

/-! ### Heap weight and the merge loop -/

theorem weight_nil : weight [] = 0 := rfl

theorem weight_cons (e : Entry) (h : List Entry) :
    weight (e :: h) = e.rest.length + 1 + weight h := by
  simp [weight]

theorem weight_append (h1 h2 : List Entry) :
    weight (h1 ++ h2) = weight h1 + weight h2 := by
  simp [weight]

theorem weight_perm {h1 h2 : List Entry} (hp : h1.Perm h2) :
    weight h1 = weight h2 := by
  unfold weight
  exact List.Perm.sum_eq (hp.map (fun e => e.rest.length + 1))

theorem weight_eq_zero {h : List Entry} (hw : weight h = 0) : h = [] := by
  cases h with
  | nil => rfl
  | cons e es => rw [weight_cons] at hw; omega

theorem weight_stepHeap {h : List Entry} {e : Entry} {r : List Entry}
    (hp : popMin h = some (e, r)) :
    weight (stepHeap e r) + 1 = weight h := by
  have hw : weight h = weight (e :: r) := weight_perm (popMin_perm hp)
  rcases hrest : e.rest with _ | ⟨x, xs⟩
  · have hstep : stepHeap e r = r := by simp [stepHeap, hrest]
    rw [hw, weight_cons, hrest, hstep]
    simp only [List.length_nil]
    omega
  · have hstep : stepHeap e r = r ++ [⟨x, e.src, xs⟩] := by
      simp [stepHeap, hrest]
    rw [hw, weight_cons, hrest, hstep, weight_append, weight_cons, weight_nil]
    simp only [List.length_cons]
    omega

theorem allRows_append (h1 h2 : List Entry) :
    allRows (h1 ++ h2) = allRows h1 ++ allRows h2 := by
  simp [allRows]

theorem allRows_perm {h1 h2 : List Entry} (hp : h1.Perm h2) :
    (allRows h1).Perm (allRows h2) := by
  unfold allRows
  exact List.Perm.flatten (hp.map (fun e => e.row :: e.rest))

theorem allRows_stepHeap_perm {h : List Entry} {e : Entry} {r : List Entry}
    (hp : popMin h = some (e, r)) :
    (allRows h).Perm (e.row :: allRows (stepHeap e r)) := by
  refine (allRows_perm (popMin_perm hp)).trans ?_
  rcases hrest : e.rest with _ | ⟨x, xs⟩
  · simp [allRows, stepHeap, hrest]
  · have h1 : allRows (e :: r) = e.row :: ((x :: xs) ++ allRows r) := by
      simp [allRows, hrest]
    have h2 : allRows (stepHeap e r) = allRows r ++ (x :: xs) := by
      have hstep : stepHeap e r = r ++ [⟨x, e.src, xs⟩] := by
        simp [stepHeap, hrest]
      rw [hstep, allRows_append]
      simp [allRows]
    rw [h1, h2]
    exact List.Perm.cons e.row List.perm_append_comm

theorem mem_stepHeap {h : List Entry} {e : Entry} {r : List Entry}
    (hp : popMin h = some (e, r)) :
    ∀ f ∈ stepHeap e r, (f ∈ h) ∨ (∃ x xs, e.rest = x :: xs ∧ f = ⟨x, e.src, xs⟩) := by
  intro f hf
  rcases hrest : e.rest with _ | ⟨x, xs⟩
  · simp only [stepHeap, hrest] at hf
    exact Or.inl (popMin_rest_subset hp f hf)
  · simp only [stepHeap, hrest] at hf
    rcases List.mem_append.mp hf with hfr | hfx
    · exact Or.inl (popMin_rest_subset hp f hfr)
    · simp only [List.mem_singleton] at hfx
      exact Or.inr ⟨x, xs, rfl, hfx⟩

theorem mergeRowsF_perm :
    ∀ (fuel : Nat) (h : List Entry), weight h ≤ fuel →
      (mergeRowsF fuel h).Perm (allRows h) := by
  intro fuel
  induction fuel with
  | zero =>
    intro h hw
    have : h = [] := weight_eq_zero (Nat.le_zero.mp hw)
    subst this
    simp [mergeRowsF, allRows]
  | succ f ih =>
    intro h hw
    simp only [mergeRowsF]
    rcases hp : popMin h with _ | ⟨e, r⟩
    · have : h = [] := popMin_eq_none hp
      subst this
      simp [allRows]
    · have hwstep : weight (stepHeap e r) ≤ f := by
        have := weight_stepHeap hp
        omega
      refine ((ih (stepHeap e r) hwstep).cons e.row).trans ?_
      exact (allRows_stepHeap_perm hp).symm

theorem mergeRowsF_lb :
    ∀ (fuel : Nat) (h : List Entry) (lb : Row),
      (∀ e ∈ h, List.Pairwise rowle (e.row :: e.rest)) →
      (∀ e ∈ h, k2LEb lb e.row = true) →
      ∀ x ∈ mergeRowsF fuel h, k2LEb lb x = true := by
  intro fuel
  induction fuel with
  | zero => intro h lb _ _ x hx; simp [mergeRowsF] at hx
  | succ f ih =>
    intro h lb hsorted hlb x hx
    simp only [mergeRowsF] at hx
    rcases hp : popMin h with _ | ⟨e, r⟩
    · rw [hp] at hx; simp at hx
    · rw [hp] at hx
      rcases List.mem_cons.mp hx with hxe | hxrec
      · rw [hxe]
        exact hlb e (popMin_mem hp)
      · refine ih (stepHeap e r) lb ?_ ?_ x hxrec
        · intro f2 hf2
          rcases mem_stepHeap hp f2 hf2 with hf2h | ⟨y, ys, hrest, hf2eq⟩
          · exact hsorted f2 hf2h
          · rw [hf2eq]
            have := hsorted e (popMin_mem hp)
            rw [hrest] at this
            exact this.of_cons
        · intro f2 hf2
          rcases mem_stepHeap hp f2 hf2 with hf2h | ⟨y, ys, hrest, hf2eq⟩
          · exact hlb f2 hf2h
          · rw [hf2eq]
            have hse := hsorted e (popMin_mem hp)
            rw [hrest] at hse
            have hey : k2LEb e.row y = true :=
              List.rel_of_pairwise_cons hse (List.mem_cons_self y ys)
            exact k2LEb_trans (hlb e (popMin_mem hp)) hey

theorem mergeRowsF_sorted :
    ∀ (fuel : Nat) (h : List Entry),
      (∀ e ∈ h, List.Pairwise rowle (e.row :: e.rest)) →
      List.Pairwise rowle (mergeRowsF fuel h) := by
  intro fuel
  induction fuel with
  | zero => intro h _; simp [mergeRowsF]
  | succ f ih =>
    intro h hsorted
    simp only [mergeRowsF]
    rcases hp : popMin h with _ | ⟨e, r⟩
    · exact List.Pairwise.nil
    · have hstep : ∀ e2 ∈ stepHeap e r, List.Pairwise rowle (e2.row :: e2.rest) := by
        intro f2 hf2
        rcases mem_stepHeap hp f2 hf2 with hf2h | ⟨y, ys, hrest, hf2eq⟩
        · exact hsorted f2 hf2h
        · rw [hf2eq]
          have := hsorted e (popMin_mem hp)
          rw [hrest] at this
          exact this.of_cons
      refine List.Pairwise.cons ?_ (ih (stepHeap e r) hstep)
      intro x hx
      refine mergeRowsF_lb f (stepHeap e r) e.row hstep ?_ x hx
      intro f2 hf2
      rcases mem_stepHeap hp f2 hf2 with hf2h | ⟨y, ys, hrest, hf2eq⟩
      · exact k2LEb_of_k4LEb (popMin_min hp f2 hf2h)
      · rw [hf2eq]
        have hse := hsorted e (popMin_mem hp)
        rw [hrest] at hse
        exact List.rel_of_pairwise_cons hse (List.mem_cons_self y ys)

/-! ### Stable insertion sort -/

theorem insertRow_perm (r : Row) (l : List Row) : (insertRow r l).Perm (r :: l) := by
  induction l with
  | nil => simp [insertRow]
  | cons x xs ih =>
    simp only [insertRow]
    split
    · exact List.Perm.refl _
    · exact (ih.cons x).trans (List.Perm.swap r x xs)

theorem sortRows_perm (l : List Row) : (sortRows l).Perm l := by
  induction l with
  | nil => simp [sortRows]
  | cons r rs ih =>
    exact (insertRow_perm r (sortRows rs)).trans (List.Perm.cons r ih)

theorem insertRow_pairwise {r : Row} {l : List Row}
    (hl : List.Pairwise rowle l) : List.Pairwise rowle (insertRow r l) := by
  induction l with
  | nil => simp [insertRow, List.pairwise_singleton]
  | cons x xs ih =>
    simp only [insertRow]
    split
    · rename_i hrx
      refine List.Pairwise.cons ?_ hl
      intro y hy
      rcases List.mem_cons.mp hy with hyx | hyxs
      · rw [hyx]; exact hrx
      · exact k2LEb_trans hrx (List.rel_of_pairwise_cons hl hyxs)
    · rename_i hrx
      have hxr : k2LEb x r = true := by
        rcases k2LEb_total r x with hx | hx
        · exact absurd hx hrx
        · exact hx
      refine List.Pairwise.cons ?_ (ih hl.of_cons)
      intro y hy
      have hy2 : y ∈ r :: xs := (insertRow_perm r xs).mem_iff.mp hy
      rcases List.mem_cons.mp hy2 with hyr | hyxs
      · rw [hyr]; exact hxr
      · exact List.rel_of_pairwise_cons hl hyxs

theorem sortRows_sorted (l : List Row) : List.Pairwise rowle (sortRows l) := by
  induction l with
  | nil => simp [sortRows]
  | cons r rs ih => exact insertRow_pairwise ih

/-! ### Shard writer -/

theorem sizeSum_nil : sizeSum [] = 0 := rfl

theorem sizeSum_append (l1 l2 : List Row) :
    sizeSum (l1 ++ l2) = sizeSum l1 + sizeSum l2 := by
  simp [sizeSum]

theorem shardGo_ne_nil (thr : Nat) :
    ∀ (rows cur : List Row) (sz : Nat), shardGo thr cur sz rows ≠ [] := by
  intro rows
  induction rows with
  | nil => intro cur sz; simp [shardGo]
  | cons r rs ih =>
    intro cur sz
    simp only [shardGo]
    split
    · simp
    · exact ih _ _

theorem shardGo_flatten (thr : Nat) :
    ∀ (rows cur : List Row) (sz : Nat),
      (shardGo thr cur sz rows).flatten = cur ++ rows := by
  intro rows
  induction rows with
  | nil => intro cur sz; simp [shardGo]
  | cons r rs ih =>
    intro cur sz
    simp only [shardGo]
    split
    · simp [ih]
    · simp [ih]

theorem shardGo_dropLast_big (thr : Nat) :
    ∀ (rows cur : List Row) (sz : Nat), sz = sizeSum cur →
      ∀ s ∈ (shardGo thr cur sz rows).dropLast, thr ≤ sizeSum s := by
  intro rows
  induction rows with
  | nil => intro cur sz _ s hs; simp [shardGo] at hs
  | cons r rs ih =>
    intro cur sz hsz s hs
    simp only [shardGo] at hs
    split at hs
    · rename_i hbig
      rw [List.dropLast_cons_of_ne_nil (shardGo_ne_nil thr rs [] 0)] at hs
      rcases List.mem_cons.mp hs with hcur | hrest
      · rw [hcur, sizeSum_append]
        have : sizeSum [r] = recSize r := by simp [sizeSum]
        rw [this, ← hsz]
        exact hbig
      · exact ih [] 0 rfl s hrest
    · refine ih (cur ++ [r]) (sz + recSize r) ?_ s hs
      rw [sizeSum_append, ← hsz]
      simp [sizeSum]

theorem shardGo_singletons (thr : Nat) :
    ∀ rows : List Row, (∀ r ∈ rows, thr ≤ recSize r) →
      shardGo thr [] 0 rows = rows.map (fun r => [r]) ++ [[]] := by
  intro rows
  induction rows with
  | nil => simp [shardGo]
  | cons r rs ih =>
    intro hbig
    have hr : thr ≤ recSize r := hbig r (List.mem_cons_self r rs)
    simp only [shardGo, Nat.zero_add, hr, if_pos]
    rw [ih (fun x hx => hbig x (List.mem_cons_of_mem r hx))]
    simp

/-! ### Initial heap -/

theorem allRows_cons (e : Entry) (h : List Entry) :
    allRows (e :: h) = (e.row :: e.rest) ++ allRows h := by
  simp [allRows]

theorem allRows_initHeapAux :
    ∀ (runs : List (List Row)) (n : Nat),
      allRows ((withIds n runs).filterMap (fun p =>
        match p.2 with
        | [] => none
        | r :: rs => some ⟨r, p.1, rs⟩)) = runs.flatten := by
  intro runs
  induction runs with
  | nil => intro n; simp [withIds, allRows]
  | cons run rest ih =>
    intro n
    cases run with
    | nil =>
      simp only [withIds, List.filterMap_cons]
      simpa using ih (n + 1)
    | cons r rs =>
      simp only [withIds, List.filterMap_cons, allRows_cons]
      rw [ih (n + 1)]
      simp

theorem allRows_initHeap (runs : List (List Row)) :
    allRows (initHeap runs) = runs.flatten :=
  allRows_initHeapAux runs 0

theorem initHeap_mem_runs :
    ∀ (runs : List (List Row)) (n : Nat) (e : Entry),
      e ∈ (withIds n runs).filterMap (fun p =>
        match p.2 with
        | [] => none
        | r :: rs => some ⟨r, p.1, rs⟩) →
      (e.row :: e.rest) ∈ runs := by
  intro runs
  induction runs with
  | nil => intro n e he; simp [withIds] at he
  | cons run rest ih =>
    intro n e he
    cases run with
    | nil =>
      simp only [withIds, List.filterMap_cons] at he
      exact List.mem_cons_of_mem _ (ih (n + 1) e he)
    | cons r rs =>
      simp only [withIds, List.filterMap_cons] at he
      rcases List.mem_cons.mp he with hee | hee
      · rw [hee]
        exact List.mem_cons_self _ _
      · exact List.mem_cons_of_mem _ (ih (n + 1) e hee)

theorem initHeap_srcs_aux :
    ∀ (runs : List (List Row)) (n : Nat),
      (((withIds n runs).filterMap (fun p =>
        match p.2 with
        | [] => none
        | r :: rs => some ⟨r, p.1, rs⟩)).map Entry.src).Nodup ∧
      ∀ s ∈ ((withIds n runs).filterMap (fun p =>
        match p.2 with
        | [] => none
        | r :: rs => some ⟨r, p.1, rs⟩)).map Entry.src, n ≤ s := by
  intro runs
  induction runs with
  | nil => intro n; simp [withIds]
  | cons run rest ih =>
    intro n
    cases run with
    | nil =>
      simp only [withIds, List.filterMap_cons]
      refine ⟨(ih (n + 1)).1, ?_⟩
      intro s hs
      exact Nat.le_of_succ_le ((ih (n + 1)).2 s hs)
    | cons r rs =>
      simp only [withIds, List.filterMap_cons, List.map_cons]
      constructor
      · refine List.Pairwise.cons ?_ (ih (n + 1)).1
        intro s hs h
        have := (ih (n + 1)).2 s hs
        omega
      · intro s hs
        rcases List.mem_cons.mp hs with hsn | hsr
        · omega
        · exact Nat.le_of_succ_le ((ih (n + 1)).2 s hsr)

theorem initHeap_src_nodup (runs : List (List Row)) :
    ((initHeap runs).map Entry.src).Nodup :=
  (initHeap_srcs_aux runs 0).1

theorem stepHeap_src_nodup {h : List Entry} {e : Entry} {r : List Entry}
    (hp : popMin h = some (e, r)) (hn : (h.map Entry.src).Nodup) :
    ((stepHeap e r).map Entry.src).Nodup := by
  have hperm : (h.map Entry.src).Perm ((e :: r).map Entry.src) :=
    (popMin_perm hp).map Entry.src
  have hn2 : ((e :: r).map Entry.src).Nodup := hperm.nodup_iff.mp hn
  rcases hrest : e.rest with _ | ⟨x, xs⟩
  · have hstep : stepHeap e r = r := by simp [stepHeap, hrest]
    rw [hstep]
    exact (List.nodup_cons.mp hn2).2
  · have hstep : stepHeap e r = r ++ [⟨x, e.src, xs⟩] := by
      simp [stepHeap, hrest]
    rw [hstep]
    have : ((r ++ [(⟨x, e.src, xs⟩ : Entry)]).map Entry.src).Perm
        ((e :: r).map Entry.src) := by
      simp only [List.map_append, List.map_cons, List.map_nil]
      exact List.perm_append_comm.trans (List.Perm.refl _)
    exact this.nodup_iff.mpr hn2

theorem src_inj_of_nodup :
    ∀ {h : List Entry}, (h.map Entry.src).Nodup →
      ∀ e1 ∈ h, ∀ e2 ∈ h, e1.src = e2.src → e1 = e2 := by
  intro h
  induction h with
  | nil => intro _ e1 he1; simp at he1
  | cons a as ih =>
    intro hn e1 he1 e2 he2 hsrc
    have hna : a.src ∉ as.map Entry.src := (List.nodup_cons.mp hn).1
    have hnas : (as.map Entry.src).Nodup := (List.nodup_cons.mp hn).2
    rcases List.mem_cons.mp he1 with h1 | h1 <;> rcases List.mem_cons.mp he2 with h2 | h2
    · rw [h1, h2]
    · exfalso
      apply hna
      rw [h1] at hsrc
      rw [hsrc]
      exact List.mem_map_of_mem Entry.src h2
    · exfalso
      apply hna
      rw [h2] at hsrc
      rw [← hsrc]
      exact List.mem_map_of_mem Entry.src h1
    · exact ih hnas e1 h1 e2 h2 hsrc

/-! ### Flatten utilities -/

theorem flatten_map_perm {α β : Type} (l : List α) (f g : α → List β)
    (h : ∀ a ∈ l, (f a).Perm (g a)) :
    ((l.map f).flatten).Perm ((l.map g).flatten) := by
  induction l with
  | nil => simp
  | cons a as ih =>
    simp only [List.map_cons, List.flatten_cons]
    exact List.Perm.append (h a (List.mem_cons_self a as))
      (ih (fun x hx => h x (List.mem_cons_of_mem a hx)))

/-! ### Indexed lists -/

theorem withIds_append {α : Type} (xs : List α) :
    ∀ (n : Nat) (ys : List α),
      withIds n (xs ++ ys) = withIds n xs ++ withIds (n + xs.length) ys := by
  induction xs with
  | nil => intro n ys; simp [withIds]
  | cons a xs ih =>
    intro n ys
    simp only [List.cons_append, withIds, List.length_cons, List.append_eq]
    rw [ih (n + 1)]
    have : n + 1 + xs.length = n + (xs.length + 1) := by omega
    rw [this]

theorem withIds_map_snd {α : Type} :
    ∀ (l : List α) (n : Nat), (withIds n l).map Prod.snd = l := by
  intro l
  induction l with
  | nil => intro n; simp [withIds]
  | cons a xs ih => intro n; simp [withIds, ih (n + 1)]

theorem docsWithIds_nil : docsWithIds [] = [] := rfl

theorem docsWithIds_cons (b : List Str × Nat) (bs : List (List Str × Nat)) :
    docsWithIds (b :: bs) = withIds b.2 b.1 ++ docsWithIds bs := by
  simp [docsWithIds]

theorem docsWithIds_snd (batches : List (List Str × Nat)) :
    (docsWithIds batches).map Prod.snd = (batches.map Prod.fst).flatten := by
  induction batches with
  | nil => rfl
  | cons b bs ih =>
    rw [docsWithIds_cons, List.map_append, withIds_map_snd, ih]
    simp

/-! ### Segmentation and batching -/

theorem docsWithIds_batchLoop (lpd bd : Nat) :
    ∀ (ls lineBuf docBuf : List Str) (nextId : Nat),
      docsWithIds (batchLoop lpd bd lineBuf docBuf nextId ls)
        = withIds nextId (docBuf ++ segOnly lpd lineBuf ls) := by
  intro ls
  induction ls with
  | nil =>
    intro lineBuf docBuf nextId
    simp only [batchLoop, segOnly]
    by_cases hl : lineBuf = []
    · simp only [hl, if_true]
      by_cases hd : docBuf = []
      · simp [hd, docsWithIds_nil, withIds]
      · simp [hd, docsWithIds_cons, docsWithIds_nil]
    · simp only [hl, if_false]
      have hne : docBuf ++ [lineBuf.flatten] ≠ [] := by simp
      simp [hne, docsWithIds_cons, docsWithIds_nil]
  | cons l ls2 ih =>
    intro lineBuf docBuf nextId
    simp only [batchLoop, segOnly]
    by_cases hlpd : lpd ≤ (lineBuf ++ [l]).length
    · simp only [hlpd, if_true]
      by_cases hbd : bd ≤ (docBuf ++ [(lineBuf ++ [l]).flatten]).length
      · simp only [hbd, if_true]
        rw [docsWithIds_cons, ih [] [] (nextId + (docBuf ++ [(lineBuf ++ [l]).flatten]).length)]
        simp only [List.nil_append]
        rw [← withIds_append]
        have : docBuf ++ [(lineBuf ++ [l]).flatten] ++ segOnly lpd [] ls2
            = docBuf ++ (lineBuf ++ [l]).flatten :: segOnly lpd [] ls2 := by
          simp
        rw [this]
      · simp only [hbd, if_false]
        rw [ih [] (docBuf ++ [(lineBuf ++ [l]).flatten]) nextId]
        have : docBuf ++ [(lineBuf ++ [l]).flatten] ++ segOnly lpd [] ls2
            = docBuf ++ (lineBuf ++ [l]).flatten :: segOnly lpd [] ls2 := by
          simp
        rw [this]
    · simp only [hlpd, if_false]
      exact ih (lineBuf ++ [l]) docBuf nextId

theorem chunksOf_ne_nil_eq {k : Nat} (hk : 1 ≤ k) :
    ∀ l : List Str, l ≠ [] →
      chunksOf k l = l.take k :: chunksOf k (l.drop k) := by
  intro l hl
  cases l with
  | nil => exact absurd rfl hl
  | cons x xs =>
    obtain ⟨j, rfl⟩ : ∃ j, k = j + 1 := ⟨k - 1, by omega⟩
    simp only [chunksOf, Nat.add_sub_cancel, List.take_succ_cons, List.drop_succ_cons]

theorem segOnly_chunksOf {lpd : Nat} (hlpd : 1 ≤ lpd) :
    ∀ (ls buf : List Str), buf.length < lpd →
      segOnly lpd buf ls = (chunksOf lpd (buf ++ ls)).map List.flatten := by
  intro ls
  induction ls with
  | nil =>
    intro buf hbuf
    simp only [segOnly, List.append_nil]
    by_cases hb : buf = []
    · simp [hb, chunksOf]
    · cases buf with
      | nil => exact absurd rfl hb
      | cons b bs =>
        simp only [hb, if_false, chunksOf]
        have htake : bs.take (lpd - 1) = bs := by
          apply List.take_of_length_le
          simp at hbuf
          omega
        have hdrop : bs.drop (lpd - 1) = [] := by
          apply List.drop_eq_nil_of_le
          simp at hbuf
          omega
        simp [htake, hdrop, chunksOf]
  | cons l ls2 ih =>
    intro buf hbuf
    simp only [segOnly]
    by_cases hc : lpd ≤ (buf ++ [l]).length
    · have hlen : (buf ++ [l]).length = lpd := by
        simp only [List.length_append, List.length_singleton]
        simp at hc
        omega
      simp only [hc, if_true]
      rw [ih [] (by simpa using hlpd)]
      simp only [List.nil_append]
      have hsplit : buf ++ l :: ls2 = (buf ++ [l]) ++ ls2 := by simp
      rw [hsplit, chunksOf_ne_nil_eq hlpd ((buf ++ [l]) ++ ls2) (by simp),
        List.take_left' hlen, List.drop_left' hlen]
      simp
    · simp only [hc, if_false]
      rw [ih (buf ++ [l]) (by simp at hc ⊢; omega)]
      have : (buf ++ [l]) ++ ls2 = buf ++ l :: ls2 := by simp
      rw [this]

theorem batchLoop_starts (lpd bd : Nat) :
    ∀ (ls lineBuf docBuf : List Str) (nextId : Nat) (i : Nat) (b : List Str × Nat),
      (batchLoop lpd bd lineBuf docBuf nextId ls)[i]? = some b →
      b.2 = nextId + (((batchLoop lpd bd lineBuf docBuf nextId ls).take i).map
            (fun x => x.1.length)).sum := by
  intro ls
  induction ls with
  | nil =>
    intro lineBuf docBuf nextId i b hb
    simp only [batchLoop] at hb ⊢
    by_cases hl : lineBuf = []
    · simp only [hl, if_true] at hb ⊢
      by_cases hd : docBuf = []
      · simp [hd] at hb
      · simp only [hd, if_false] at hb ⊢
        cases i with
        | zero =>
          simp only [List.getElem?_cons_zero, Option.some.injEq] at hb
          simp [← hb]
        | succ j => simp at hb
    · simp only [hl, if_false] at hb ⊢
      have hne : docBuf ++ [lineBuf.flatten] ≠ [] := by simp
      simp only [hne, if_false] at hb ⊢
      cases i with
      | zero =>
        simp only [List.getElem?_cons_zero, Option.some.injEq] at hb
        simp [← hb]
      | succ j => simp at hb
  | cons l ls2 ih =>
    intro lineBuf docBuf nextId i b hb
    simp only [batchLoop] at hb ⊢
    by_cases hlpd : lpd ≤ (lineBuf ++ [l]).length
    · simp only [hlpd, if_true] at hb ⊢
      by_cases hbd : bd ≤ (docBuf ++ [(lineBuf ++ [l]).flatten]).length
      · simp only [hbd, if_true] at hb ⊢
        cases i with
        | zero =>
          simp only [List.getElem?_cons_zero, Option.some.injEq] at hb
          simp [← hb]
        | succ j =>
          simp only [List.getElem?_cons_succ] at hb
          rw [List.take_succ_cons]
          rw [ih [] [] (nextId + (docBuf ++ [(lineBuf ++ [l]).flatten]).length) j b hb]
          simp only [List.map_cons, List.sum_cons]
          omega
      · simp only [hbd, if_false] at hb ⊢
        exact ih [] (docBuf ++ [(lineBuf ++ [l]).flatten]) nextId i b hb
    · simp only [hlpd, if_false] at hb ⊢
      exact ih (lineBuf ++ [l]) docBuf nextId i b hb

/-! ### Map phase -/

theorem tokenize_nil : tokenize [] = [] := rfl

theorem docRows_nil (did : Nat) : docRows [] did = [] := rfl

theorem map_count_docs_len :
    ∀ (ts : List Str) (did : Nat), (map_count_docs ts did).2 = ts.length := by
  intro ts
  induction ts with
  | nil => intro did; rfl
  | cons txt rest ih =>
    intro did
    simp only [map_count_docs]
    by_cases h : txt = []
    · simp [h, ih (did + 1)]
    · simp [h, ih (did + 1)]

theorem map_count_docs_rows :
    ∀ (ts : List Str) (did : Nat),
      (map_count_docs ts did).1
        = ((withIds did ts).map (fun p => docRows p.2 p.1)).flatten := by
  intro ts
  induction ts with
  | nil => intro did; rfl
  | cons txt rest ih =>
    intro did
    simp only [map_count_docs, withIds, List.map_cons, List.flatten_cons]
    by_cases h : txt = []
    · simp [h, docRows_nil, ih (did + 1)]
    · simp [h, ih (did + 1)]

theorem pipeline_rows_eq (batches : List (List Str × Nat)) :
    ((batches.map (fun b => (map_count_docs b.1 b.2).1)).flatten)
      = ((docsWithIds batches).map (fun p => docRows p.2 p.1)).flatten := by
  induction batches with
  | nil => rfl
  | cons b bs ih =>
    simp only [List.map_cons, List.flatten_cons, docsWithIds_cons, List.map_append,
      List.flatten_append]
    rw [map_count_docs_rows, ih]

/-! ### Tokenizer characterization -/

theorem tokenizeF_nil : ∀ fuel : Nat, tokenizeF fuel [] = [] := by
  intro fuel
  cases fuel <;> rfl

theorem fieldsBy_ne_nil (tokc : Char → Bool) : ∀ cs : Str, fieldsBy tokc cs ≠ [] := by
  intro cs
  cases cs with
  | nil => simp [fieldsBy]
  | cons c cs2 =>
    rcases h : fieldsBy tokc cs2 with _ | ⟨g, gs⟩
    · simp [fieldsBy, h]
    · by_cases hc : tokc c = true <;> simp [fieldsBy, h, hc]

theorem dropWhile_head_false {p : Char → Bool} :
    ∀ {l : Str} {d : Char} {r : Str}, l.dropWhile p = d :: r → p d = false := by
  intro l
  induction l with
  | nil => intro d r h; simp at h
  | cons a as ih =>
    intro d r h
    by_cases hp : p a = true
    · rw [List.dropWhile_cons_of_pos hp] at h
      exact ih h
    · rw [List.dropWhile_cons_of_neg hp] at h
      cases h
      simpa using hp

theorem fieldsBy_cons_neg {tokc : Char → Bool} {c : Char} (hc : tokc c = false)
    (cs : Str) : fieldsBy tokc (c :: cs) = [] :: fieldsBy tokc cs := by
  rcases hfb : fieldsBy tokc cs with _ | ⟨g, gs⟩
  · exact absurd hfb (fieldsBy_ne_nil tokc cs)
  · simp [fieldsBy, hfb, hc]

theorem fieldsBy_eq (tokc : Char → Bool) :
    ∀ cs : Str, fieldsBy tokc cs = cs.takeWhile tokc :: restFields tokc cs := by
  intro cs
  induction cs with
  | nil => simp [fieldsBy, restFields]
  | cons c cs2 ih =>
    by_cases hc : tokc c = true
    · rcases hfb : fieldsBy tokc cs2 with _ | ⟨g, gs⟩
      · exact absurd hfb (fieldsBy_ne_nil tokc cs2)
      · rw [hfb] at ih
        have hg : g = cs2.takeWhile tokc := (List.cons.injEq _ _ _ _ ▸ ih).1
        have hgs : gs = restFields tokc cs2 := (List.cons.injEq _ _ _ _ ▸ ih).2
        simp only [fieldsBy, hfb, hc, if_true]
        rw [List.takeWhile_cons_of_pos hc, hg, hgs]
        have : restFields tokc (c :: cs2) = restFields tokc cs2 := by
          simp [restFields, List.dropWhile_cons_of_pos hc]
        rw [this]
    · have hcf : tokc c = false := by simpa using hc
      rw [fieldsBy_cons_neg hcf cs2, List.takeWhile_cons_of_neg hc]
      have hrf : restFields tokc (c :: cs2) = fieldsBy tokc cs2 := by
        simp [restFields, List.dropWhile_cons_of_neg hc]
      rw [hrf]

theorem tokenizeF_fieldsBy :
    ∀ (fuel : Nat) (s : Str), s.length ≤ fuel →
      tokenizeF fuel s
        = ((fieldsBy isTokChar s).filter (fun g => !g.isEmpty)).map
            (List.map toLowerCh) := by
  intro fuel
  induction fuel with
  | zero =>
    intro s hs
    have : s = [] := List.length_eq_zero.mp (Nat.le_zero.mp hs)
    subst this
    simp [tokenizeF, fieldsBy]
  | succ f ih =>
    intro s hs
    cases s with
    | nil => simp [tokenizeF, fieldsBy]
    | cons c cs =>
      simp only [List.length_cons, Nat.succ_le_succ_iff] at hs
      by_cases hc : isTokChar c = true
      · simp only [tokenizeF, hc, if_true]
        rw [fieldsBy_eq isTokChar (c :: cs), List.takeWhile_cons_of_pos hc]
        have hrest : restFields isTokChar (c :: cs) = restFields isTokChar cs := by
          simp [restFields, List.dropWhile_cons_of_pos hc]
        rw [hrest]
        have hfilter :
            (((c :: cs.takeWhile isTokChar) :: restFields isTokChar cs).filter
              (fun g => !g.isEmpty))
            = (c :: cs.takeWhile isTokChar) ::
                ((restFields isTokChar cs).filter (fun g => !g.isEmpty)) := by
          simp
        rw [hfilter, List.map_cons]
        refine congrArg _ ?_
        rcases hdw : cs.dropWhile isTokChar with _ | ⟨d, r⟩
        · have hrf : restFields isTokChar cs = [] := by
            simp [restFields, hdw]
          rw [hrf, tokenizeF_nil]
          simp
        · have hd : isTokChar d = false := dropWhile_head_false hdw
          have hrf : restFields isTokChar cs = fieldsBy isTokChar r := by
            simp [restFields, hdw]
          have hlen2 : (d :: r).length ≤ f := by
            have hsub := (List.dropWhile_sublist isTokChar (l := cs)).length_le
            rw [hdw] at hsub
            omega
          rw [ih (d :: r) hlen2, fieldsBy_cons_neg hd r, hrf]
          simp
      · have hcf : isTokChar c = false := by simpa using hc
        simp only [tokenizeF, hc, if_false]
        rw [ih cs (by omega), fieldsBy_cons_neg hcf cs]
        simp

theorem tokenize_fieldsBy (s : Str) :
    tokenize s
      = ((fieldsBy isTokChar s).filter (fun g => !g.isEmpty)).map
          (List.map toLowerCh) :=
  tokenizeF_fieldsBy s.length s (Nat.le_refl _)

/-! ### Filesystem trace -/

theorem foldl_fsCreate (g : Nat → FPath) :
    ∀ (n : Nat) (s : List FPath),
      (List.range n).foldl (fun fs i => fsCreate (g i) fs) s
        = s ++ (List.range n).map g := by
  intro n
  induction n with
  | zero => intro s; simp
  | succ n ih =>
    intro s
    rw [List.range_succ, List.foldl_append, ih s]
    simp [fsCreate]

theorem foldl_fsRemove_chunks :
    ∀ (n : Nat) (pre post : List FPath), (∀ i, FPath.chunk i ∉ pre) →
      (List.range n).foldl (fun fs i => fsRemove (.chunk i) fs)
        (pre ++ (List.range n).map FPath.chunk ++ post) = pre ++ post := by
  intro n
  induction n with
  | zero => intro pre post _; simp
  | succ n ih =>
    intro pre post hpre
    rw [List.range_succ, List.foldl_append, List.map_append]
    simp only [List.map_cons, List.map_nil]
    have hassoc :
        pre ++ ((List.range n).map FPath.chunk ++ [FPath.chunk n]) ++ post
          = pre ++ (List.range n).map FPath.chunk ++ (FPath.chunk n :: post) := by
      simp
    rw [hassoc, ih pre (FPath.chunk n :: post) hpre]
    simp only [List.foldl_cons, List.foldl_nil, fsRemove]
    rw [List.erase_append]
    have hnp : FPath.chunk n ∉ pre := hpre n
    simp [hnp]

theorem buildFsTrace_eq (nRuns nShards : Nat) :
    buildFsTrace nRuns nShards
      = [FPath.outDir] ++ (List.range nShards).map FPath.shard
          ++ [FPath.summary] := by
  simp only [buildFsTrace]
  rw [foldl_fsCreate, foldl_fsCreate]
  have h1 : fsCreate FPath.tmpDir (fsCreate FPath.outDir [])
      = [FPath.outDir, FPath.tmpDir] := rfl
  rw [h1,
    foldl_fsRemove_chunks nRuns [FPath.outDir, FPath.tmpDir]
      ((List.range nShards).map FPath.shard) (by intro i; simp)]
  simp only [fsRemove, fsCreate]
  rw [show ([FPath.outDir, FPath.tmpDir] : List FPath)
      = [FPath.outDir] ++ [FPath.tmpDir] by rfl]
  rw [List.append_assoc, List.erase_append]
  simp

/-! ### Remaining helpers -/

theorem mergeRows_step {h : List Entry} {e : Entry} {r : List Entry}
    (hp : popMin h = some (e, r)) :
    mergeRows h = e.row :: mergeRows (stepHeap e r) := by
  unfold mergeRows
  have hw := weight_stepHeap hp
  rcases hweq : weight h with _ | k
  · have : h = [] := weight_eq_zero hweq
    subst this
    simp [popMin] at hp
  · rw [hweq] at hw
    simp only [mergeRowsF, hp]
    have : weight (stepHeap e r) = k := by omega
    rw [this]

theorem mergeRows_nil : mergeRows [] = [] := rfl

theorem docRows_doc {txt : Str} {did : Nat} {r : Row}
    (hr : r ∈ docRows txt did) : r.doc = did := by
  simp only [docRows, List.mem_map] at hr
  rcases hr with ⟨p, _, hp⟩
  rw [← hp]

theorem docRows_of_tokenize_nil {txt : Str} (did : Nat)
    (h : tokenize txt = []) : docRows txt did = [] := by
  simp [docRows, countTok, firstOccs, h, firstOccsF]

theorem withIds_mem {α : Type} :
    ∀ (l : List α) (n : Nat) (p : Nat × α), p ∈ withIds n l →
      ∃ j, ∃ hj : j < l.length, p.1 = n + j ∧ p.2 = l.get ⟨j, hj⟩ := by
  intro l
  induction l with
  | nil => intro n p hp; simp [withIds] at hp
  | cons a as ih =>
    intro n p hp
    simp only [withIds, List.mem_cons] at hp
    rcases hp with hp | hp
    · exact ⟨0, by simp, by simp [hp]⟩
    · rcases ih (n + 1) p hp with ⟨j, hj, h1, h2⟩
      refine ⟨j + 1, by simpa using hj, ?_, ?_⟩
      · omega
      · simpa using h2

theorem map_count_docs_mem {texts : List Str} {start : Nat} {r : Row}
    (hr : r ∈ (map_count_docs texts start).1) :
    ∃ j, ∃ hj : j < texts.length,
      r.doc = start + j ∧ r ∈ docRows (texts.get ⟨j, hj⟩) (start + j) := by
  rw [map_count_docs_rows] at hr
  simp only [List.mem_flatten, List.mem_map] at hr
  rcases hr with ⟨rows, ⟨p, hp, hrows⟩, hrmem⟩
  rcases withIds_mem texts start p hp with ⟨j, hj, h1, h2⟩
  rw [← hrows, h2, h1] at hrmem
  exact ⟨j, hj, docRows_doc hrmem, hrmem⟩

/-! ### Claim theorems -/

/-- C1: for every input and every configuration with `lines_per_doc ≥ 1`,
the multiset of `(term, doc_id, term_frequency)` records in the shard
files produced by `build_inverted_index` equals the multiset produced by
the single-threaded reference that segments the lines into documents,
tokenizes each document independently and counts its term frequencies
directly — the pipeline only re-sorts and reshards, never altering,
duplicating or dropping a record. -/
theorem c1_pipeline_refines_reference (lpd bd mb : Nat) (lines : List Str)
    (hlpd : 1 ≤ lpd) :
    ((build_inverted_index lpd bd mb lines).1.flatten).Perm
      (referenceRows lpd lines) := by
  have h1 : (build_inverted_index lpd bd mb lines).1.flatten
      = mergeRows (initHeap ((batchLoop lpd bd [] [] 0 lines).map
          (fun (b : List Str × Nat) => sortRows (map_count_docs b.1 b.2).1))) := by
    simp only [build_inverted_index, merge_sorted_chunks, spill_sorted_chunk]
    rw [shardGo_flatten]
    simp
  rw [h1]
  refine (mergeRowsF_perm _ _ (Nat.le_refl _)).trans ?_
  rw [allRows_initHeap]
  refine (flatten_map_perm (batchLoop lpd bd [] [] 0 lines)
    (fun (b : List Str × Nat) => sortRows (map_count_docs b.1 b.2).1)
    (fun (b : List Str × Nat) => (map_count_docs b.1 b.2).1)
    (fun b _ => sortRows_perm _)).trans ?_
  rw [pipeline_rows_eq, docsWithIds_batchLoop lpd bd lines [] [] 0,
    segOnly_chunksOf hlpd lines [] (by simpa using hlpd)]
  simp only [List.nil_append]
  exact List.Perm.refl _

/-- Witness for C1 at a concrete input. -/
theorem c1_witness :
    1 ≤ 1 ∧ ((build_inverted_index 1 1 0 [['a']]).1.flatten).Perm
      (referenceRows 1 [['a']]) :=
  ⟨Nat.le_refl 1, c1_pipeline_refines_reference 1 1 0 [['a']] (Nat.le_refl 1)⟩

/-- C2: given input runs each sorted by `(term, doc_id)` ascending, any
two consecutive records in the concatenation of all shard files emitted
by the merge/shard phase are non-decreasing in `(term, doc_id)` — term
compared lexicographically, then doc id numerically — across shard
boundaries included. -/
theorem c2_merge_output_sorted (runs : List (List Row)) (mb : Nat)
    (hruns : ∀ run ∈ runs, List.Chain' rowle run) :
    List.Chain' rowle ((merge_sorted_chunks runs mb).1.flatten) := by
  have h1 : (merge_sorted_chunks runs mb).1.flatten = mergeRows (initHeap runs) := by
    simp only [merge_sorted_chunks]
    rw [shardGo_flatten]
    simp
  rw [h1]
  haveI : IsTrans Row rowle := ⟨fun _ _ _ hab hbc => k2LEb_trans hab hbc⟩
  refine List.Pairwise.chain' ?_
  refine mergeRowsF_sorted _ _ ?_
  intro e he
  have hrun : (e.row :: e.rest) ∈ runs := initHeap_mem_runs runs 0 e he
  exact List.chain'_iff_pairwise.mp (hruns _ hrun)

/-- Witness for C2 at a concrete input. -/
theorem c2_witness :
    (∀ run ∈ [[(⟨['a'], 0, 1⟩ : Row)], [(⟨['b'], 1, 1⟩ : Row)]],
        List.Chain' rowle run)
    ∧ List.Chain' rowle
        ((merge_sorted_chunks [[(⟨['a'], 0, 1⟩ : Row)], [(⟨['b'], 1, 1⟩ : Row)]]
          0).1.flatten) :=
  ⟨by intro run hrun
      rcases List.mem_cons.mp hrun with h | h
      · subst h; simp
      · simp only [List.mem_singleton] at h
        subst h; simp,
    c2_merge_output_sorted _ 0 (by
      intro run hrun
      rcases List.mem_cons.mp hrun with h | h
      · subst h; simp
      · simp only [List.mem_singleton] at h
        subst h; simp)⟩

/-- C3: for `lines_per_doc ≥ 1` the segmenter emits the concatenations of
the consecutive groups of `lines_per_doc` lines in order (a trailing
partial group included), ids are dense from 0 in input order, and every
batch's start id equals the number of documents emitted before it, so
batch id ranges are disjoint, contiguous, and cover all documents. -/
theorem c3_segmenter_batching (lpd bd : Nat) (lines : List Str)
    (hlpd : 1 ≤ lpd) :
    ((batchLoop lpd bd [] [] 0 lines).map Prod.fst).flatten
        = (chunksOf lpd lines).map List.flatten
    ∧ ∀ (i : Nat) (b : List Str × Nat),
        (batchLoop lpd bd [] [] 0 lines)[i]? = some b →
        b.2 = (((batchLoop lpd bd [] [] 0 lines).take i).map
            (fun x => x.1.length)).sum := by
  constructor
  · have h := docsWithIds_batchLoop lpd bd lines [] [] 0
    have h2 := congrArg (List.map Prod.snd) h
    rw [docsWithIds_snd, withIds_map_snd] at h2
    rw [h2, segOnly_chunksOf hlpd lines [] (by simpa using hlpd)]
    simp
  · intro i b hb
    have := batchLoop_starts lpd bd lines [] [] 0 i b hb
    simpa using this

/-- Witness for C3 at a concrete input. -/
theorem c3_witness :
    1 ≤ 1 ∧
    (((batchLoop 1 1 [] [] 0 [['a'], ['b']]).map Prod.fst).flatten
        = (chunksOf 1 [['a'], ['b']]).map List.flatten
    ∧ ∀ (i : Nat) (b : List Str × Nat),
        (batchLoop 1 1 [] [] 0 [['a'], ['b']])[i]? = some b →
        b.2 = (((batchLoop 1 1 [] [] 0 [['a'], ['b']]).take i).map
            (fun x => x.1.length)).sum) :=
  ⟨Nat.le_refl 1, c3_segmenter_batching 1 1 [['a'], ['b']] (Nat.le_refl 1)⟩

/-- C4 counterexample: the claim describes the token class as all Unicode
letters, but the source regex covers only the Latin letter ranges; the
MICRO SIGN `µ` (U+00B5) is a Unicode letter (category Ll) yet acts as a
delimiter in the code, so on `"aµb"` the code yields `["a", "b"]` while
the claim's tokenizer yields `["aµb"]`. -/
theorem c4_counterexample :
    tokenize ['a', 'µ', 'b'] = [['a'], ['b']]
    ∧ specTokenize ['a', 'µ', 'b'] = [['a', 'µ', 'b']]
    ∧ tokenize ['a', 'µ', 'b'] ≠ specTokenize ['a', 'µ', 'b'] := by
  refine ⟨by decide, by decide, by decide⟩

/-- C4 amended: for every input string, `tokenize` yields exactly the
non-empty fields obtained by splitting at every character outside the
source's class (ASCII letters, digits, apostrophe, and the Latin-1
letter ranges `À`-`Ö`, `Ø`-`ö`, `ø`-`ÿ` — not all Unicode letters), each
field lowercased, in order; characters outside that class are delimiters
and never appear in a token, the empty string yields the empty sequence,
and the function is total. -/
theorem c4_amended_tokenize_fields (s : Str) :
    tokenize s
      = ((fieldsBy isTokChar s).filter (fun g => !g.isEmpty)).map
          (List.map toLowerCh)
    ∧ tokenize [] = [] :=
  ⟨tokenize_fieldsBy s, rfl⟩

/-- C5: every shard produced by the merge except possibly the last has
accounted size at least `shard_mb * 1024 * 1024`, and no record is split
across shard files: the concatenation of the shard contents is exactly
the merged record sequence, each record intact in exactly one shard
(shards are closed only between complete records). -/
theorem c5_shard_size_bound (runs : List (List Row)) (mb : Nat) :
    (∀ s ∈ (merge_sorted_chunks runs mb).1.dropLast,
        mb * 1024 * 1024 ≤ sizeSum s)
    ∧ (merge_sorted_chunks runs mb).1.flatten = mergeRows (initHeap runs) := by
  constructor
  · intro s hs
    simp only [merge_sorted_chunks] at hs
    exact shardGo_dropLast_big _ _ [] 0 rfl s hs
  · simp only [merge_sorted_chunks]
    rw [shardGo_flatten]
    simp

/-- Witness for C5 at a concrete input. -/
theorem c5_witness :
    (∀ s ∈ (merge_sorted_chunks [[(⟨['a'], 0, 1⟩ : Row)]] 0).1.dropLast,
        0 * 1024 * 1024 ≤ sizeSum s)
    ∧ (merge_sorted_chunks [[(⟨['a'], 0, 1⟩ : Row)]] 0).1.flatten
        = mergeRows (initHeap [[(⟨['a'], 0, 1⟩ : Row)]]) :=
  c5_shard_size_bound [[(⟨['a'], 0, 1⟩ : Row)]] 0

/-- C6 counterexample: with two runs whose heads agree on `(term, doc)`,
the heap compares `term_frequency` before the run index, so the record
with the smaller frequency is emitted first even when it comes from the
run with the larger index; run-index order (run 0's record first) is
violated when the frequencies differ. -/
theorem c6_counterexample :
    mergeRows (initHeap [[(⟨['a'], 0, 5⟩ : Row)], [(⟨['a'], 0, 2⟩ : Row)]])
        = [(⟨['a'], 0, 2⟩ : Row), (⟨['a'], 0, 5⟩ : Row)]
    ∧ mergeRows (initHeap [[(⟨['a'], 0, 5⟩ : Row)], [(⟨['a'], 0, 2⟩ : Row)]])
        ≠ [(⟨['a'], 0, 5⟩ : Row), (⟨['a'], 0, 2⟩ : Row)] := by
  refine ⟨by decide, by decide⟩

/-- C6 amended: when two runs' head records compare equal on
`(term, doc_id)`, the merge emits both records rather than merging their
frequencies, in the deterministic order of the full heap key: the record
with the smaller `(term_frequency, run_index)` first — run-index order
applies only when the frequencies are also equal. -/
theorem c6_amended_tie_break (r0 r1 : Row) (hterm : r0.term = r1.term)
    (hdoc : r0.doc = r1.doc) :
    mergeRows (initHeap [[r0], [r1]])
      = if r0.tf ≤ r1.tf then [r0, r1] else [r1, r0] := by
  have hh : initHeap [[r0], [r1]] = [⟨r0, 0, []⟩, ⟨r1, 1, []⟩] := rfl
  rw [hh]
  have hk4 : k4LEb ⟨r0, 0, []⟩ ⟨r1, 1, []⟩ = decide (r0.tf ≤ r1.tf) := by
    show (if strLtb r0.term r1.term then true
      else if strLtb r1.term r0.term then false
      else if r0.doc < r1.doc then true
      else if r1.doc < r0.doc then false
      else if r0.tf < r1.tf then true
      else if r1.tf < r0.tf then false
      else decide ((0 : Nat) ≤ 1)) = decide (r0.tf ≤ r1.tf)
    rw [hterm, hdoc]
    simp only [strLtb_irrefl, Bool.false_eq_true, lt_self_iff_false, if_false]
    by_cases h1 : r0.tf < r1.tf
    · rw [if_pos h1]
      have h2 : r0.tf ≤ r1.tf := Nat.le_of_lt h1
      simp [h2]
    · rw [if_neg h1]
      by_cases h2 : r1.tf < r0.tf
      · rw [if_pos h2]
        have h3 : ¬(r0.tf ≤ r1.tf) := by omega
        simp [h3]
      · rw [if_neg h2]
        have h3 : r0.tf ≤ r1.tf := by omega
        simp [h3]
  have hpop : popMin [(⟨r0, 0, []⟩ : Entry), ⟨r1, 1, []⟩]
      = if r0.tf ≤ r1.tf then some (⟨r0, 0, []⟩, [⟨r1, 1, []⟩])
        else some (⟨r1, 1, []⟩, [⟨r0, 0, []⟩]) := by
    simp only [popMin, hk4]
    by_cases h : r0.tf ≤ r1.tf
    · simp [h]
    · simp [h]
  by_cases htf : r0.tf ≤ r1.tf
  · rw [if_pos htf] at hpop
    rw [mergeRows_step hpop]
    have hstep : stepHeap (⟨r0, 0, []⟩ : Entry) [⟨r1, 1, []⟩] = [⟨r1, 1, []⟩] := rfl
    rw [hstep]
    have hpop2 : popMin [(⟨r1, 1, []⟩ : Entry)] = some (⟨r1, 1, []⟩, []) := rfl
    rw [mergeRows_step hpop2]
    have hstep2 : stepHeap (⟨r1, 1, []⟩ : Entry) [] = [] := rfl
    rw [hstep2, mergeRows_nil, if_pos htf]
  · rw [if_neg htf] at hpop
    rw [mergeRows_step hpop]
    have hstep : stepHeap (⟨r1, 1, []⟩ : Entry) [⟨r0, 0, []⟩] = [⟨r0, 0, []⟩] := rfl
    rw [hstep]
    have hpop2 : popMin [(⟨r0, 0, []⟩ : Entry)] = some (⟨r0, 0, []⟩, []) := rfl
    rw [mergeRows_step hpop2]
    have hstep2 : stepHeap (⟨r0, 0, []⟩ : Entry) [] = [] := rfl
    rw [hstep2, mergeRows_nil, if_neg htf]

/-- Witness for the amended C6 at a concrete input. -/
theorem c6_witness :
    ((⟨['a'], 0, 5⟩ : Row).term = (⟨['a'], 0, 2⟩ : Row).term
      ∧ (⟨['a'], 0, 5⟩ : Row).doc = (⟨['a'], 0, 2⟩ : Row).doc)
    ∧ mergeRows (initHeap [[(⟨['a'], 0, 5⟩ : Row)], [(⟨['a'], 0, 2⟩ : Row)]])
        = if (5 : Nat) ≤ 2 then [(⟨['a'], 0, 5⟩ : Row), ⟨['a'], 0, 2⟩]
          else [(⟨['a'], 0, 2⟩ : Row), ⟨['a'], 0, 5⟩] :=
  ⟨⟨rfl, rfl⟩, c6_amended_tie_break ⟨['a'], 0, 5⟩ ⟨['a'], 0, 2⟩ rfl rfl⟩

/-- C7 counterexample: with the threshold below one record's size, the
merge of a single one-record run writes the record, immediately rolls
over, and opens a trailing empty shard: it returns record count 1 but
shard count 2, so shard count does not equal record count as claimed. -/
theorem c7_counterexample :
    (merge_sorted_chunks [[(⟨['a'], 0, 1⟩ : Row)]] 0).2.1 = 1
    ∧ (merge_sorted_chunks [[(⟨['a'], 0, 1⟩ : Row)]] 0).2.2 = 2
    ∧ (merge_sorted_chunks [[(⟨['a'], 0, 1⟩ : Row)]] 0).2.2
        ≠ (merge_sorted_chunks [[(⟨['a'], 0, 1⟩ : Row)]] 0).2.1 := by
  refine ⟨by decide, by decide, by decide⟩

/-- C7 amended: if the shard size threshold is at most the size of every
record, every record lands in a shard of its own (in merge order),
followed by one final empty shard, and the returned shard count equals
the returned record count plus one. -/
theorem c7_amended_one_record_per_shard (runs : List (List Row)) (mb : Nat)
    (hbig : ∀ r ∈ runs.flatten, mb * 1024 * 1024 ≤ recSize r) :
    (merge_sorted_chunks runs mb).1
        = (mergeRows (initHeap runs)).map (fun r => [r]) ++ [[]]
    ∧ (merge_sorted_chunks runs mb).2.2 = (merge_sorted_chunks runs mb).2.1 + 1 := by
  have hrows : ∀ r ∈ mergeRows (initHeap runs), mb * 1024 * 1024 ≤ recSize r := by
    intro r hr
    have hmem : r ∈ allRows (initHeap runs) :=
      (mergeRowsF_perm _ _ (Nat.le_refl _)).mem_iff.mp hr
    rw [allRows_initHeap] at hmem
    exact hbig r hmem
  have hshards : shardGo (mb * 1024 * 1024) [] 0 (mergeRows (initHeap runs))
      = (mergeRows (initHeap runs)).map (fun r => [r]) ++ [[]] :=
    shardGo_singletons _ _ hrows
  constructor
  · simp only [merge_sorted_chunks]
    exact hshards
  · simp only [merge_sorted_chunks]
    rw [hshards]
    simp

/-- Witness for the amended C7 at a concrete input. -/
theorem c7_witness :
    (∀ r ∈ ([[(⟨['a'], 0, 1⟩ : Row)]] : List (List Row)).flatten,
        0 * 1024 * 1024 ≤ recSize r)
    ∧ (merge_sorted_chunks [[(⟨['a'], 0, 1⟩ : Row)]] 0).2.2
        = (merge_sorted_chunks [[(⟨['a'], 0, 1⟩ : Row)]] 0).2.1 + 1 :=
  ⟨by decide, (c7_amended_one_record_per_shard [[⟨['a'], 0, 1⟩]] 0 (by decide)).2⟩

/-- C8: a document whose text yields zero tokens still consumes exactly
one document id — the batch's returned count is the full batch length and
every emitted row carries the positional id of the document it came from
— but it contributes no row (no row carries its id); this is a silent
skip, not an error. -/
theorem c8_zero_token_doc (texts : List Str) (start i : Nat)
    (hi : i < texts.length)
    (hz : tokenize (texts.get ⟨i, hi⟩) = []) :
    (map_count_docs texts start).2 = texts.length
    ∧ (∀ r ∈ (map_count_docs texts start).1, r.doc ≠ start + i)
    ∧ (∀ r ∈ (map_count_docs texts start).1, ∃ j, ∃ hj : j < texts.length,
        r.doc = start + j ∧ r ∈ docRows (texts.get ⟨j, hj⟩) (start + j)) := by
  refine ⟨map_count_docs_len texts start, ?_, fun r hr => map_count_docs_mem hr⟩
  intro r hr hdoc
  rcases map_count_docs_mem hr with ⟨j, hj, h1, h2⟩
  have hij : j = i := by omega
  subst hij
  have hsame : texts.get ⟨j, hj⟩ = texts.get ⟨j, hi⟩ := rfl
  rw [hsame, docRows_of_tokenize_nil (start + j) hz] at h2
  exact absurd h2 (List.not_mem_nil r)

/-- Witness for C8 at a concrete input. -/
theorem c8_witness :
    tokenize (([[], ['a']] : List Str).get ⟨0, by decide⟩) = []
    ∧ (map_count_docs [[], ['a']] 5).2 = 2 := by
  refine ⟨rfl, ?_⟩
  have h := c8_zero_token_doc [[], ['a']] 5 0 (by decide) rfl
  simpa using h.1

/-- C9: after a successful `build_inverted_index` run — which spills one
chunk per batch and produces the returned number of shards — the
filesystem holds exactly the output directory, the shard files and the
summary: no chunk file and no temporary directory survives. -/
theorem c9_no_intermediate_files (lpd bd mb : Nat) (lines : List Str) :
    buildFsTrace (batchLoop lpd bd [] [] 0 lines).length
        (build_inverted_index lpd bd mb lines).2.2
      = [FPath.outDir]
        ++ (List.range (build_inverted_index lpd bd mb lines).2.2).map FPath.shard
        ++ [FPath.summary]
    ∧ (∀ i, FPath.chunk i ∉ buildFsTrace (batchLoop lpd bd [] [] 0 lines).length
        (build_inverted_index lpd bd mb lines).2.2)
    ∧ FPath.tmpDir ∉ buildFsTrace (batchLoop lpd bd [] [] 0 lines).length
        (build_inverted_index lpd bd mb lines).2.2 := by
  refine ⟨buildFsTrace_eq _ _, ?_, ?_⟩
  · intro i
    rw [buildFsTrace_eq]
    simp
  · rw [buildFsTrace_eq]
    simp

/-- Witness for C9 at a concrete input. -/
theorem c9_witness :
    (∀ i, FPath.chunk i ∉ buildFsTrace (batchLoop 1 1 [] [] 0 [['a']]).length
        (build_inverted_index 1 1 0 [['a']]).2.2)
    ∧ FPath.tmpDir ∉ buildFsTrace (batchLoop 1 1 [] [] 0 [['a']]).length
        (build_inverted_index 1 1 0 [['a']]).2.2 :=
  ⟨(c9_no_intermediate_files 1 1 0 [['a']]).2.1,
   (c9_no_intermediate_files 1 1 0 [['a']]).2.2⟩

/-- C10: the initial merge heap has pairwise distinct run indices, one
merge step (pop the minimum, push the popped run's successor with the
same index) preserves that distinctness, and in any heap with distinct
run indices two distinct elements always have different
`(term, doc, tf, src)` keys and are `k4LEb`-comparable — so Python's
tuple comparison is always decided at or before the fourth component and
never reaches the non-comparable generator in the fifth. -/
theorem c10_heap_key_safety :
    (∀ runs : List (List Row), ((initHeap runs).map Entry.src).Nodup)
    ∧ (∀ (h : List Entry) (e : Entry) (r : List Entry),
        (h.map Entry.src).Nodup → popMin h = some (e, r) →
        ((stepHeap e r).map Entry.src).Nodup)
    ∧ (∀ h : List Entry, (h.map Entry.src).Nodup →
        ∀ e1 ∈ h, ∀ e2 ∈ h, e1 ≠ e2 →
          key4 e1 ≠ key4 e2 ∧ (k4LEb e1 e2 || k4LEb e2 e1) = true) := by
  refine ⟨initHeap_src_nodup, ?_, ?_⟩
  · intro h e r hn hp
    exact stepHeap_src_nodup hp hn
  · intro h hn e1 he1 e2 he2 hne
    constructor
    · intro hkey
      have hsrc : e1.src = e2.src := congrArg (fun k => k.2.2.2) hkey
      exact hne (src_inj_of_nodup hn e1 he1 e2 he2 hsrc)
    · rcases k4LEb_total e1 e2 with hx | hx <;> simp [hx]

/-- Witness for C10 at a concrete heap. -/
theorem c10_witness :
    (([⟨⟨['a'], 0, 1⟩, 0, []⟩, ⟨⟨['b'], 1, 1⟩, 1, []⟩] : List Entry).map
        Entry.src).Nodup
    ∧ key4 (⟨⟨['a'], 0, 1⟩, 0, []⟩ : Entry)
        ≠ key4 (⟨⟨['b'], 1, 1⟩, 1, []⟩ : Entry) := by
  refine ⟨by decide, ?_⟩
  exact (c10_heap_key_safety.2.2
    [⟨⟨['a'], 0, 1⟩, 0, []⟩, ⟨⟨['b'], 1, 1⟩, 1, []⟩] (by decide)
    ⟨⟨['a'], 0, 1⟩, 0, []⟩ (by simp)
    ⟨⟨['b'], 1, 1⟩, 1, []⟩ (by simp) (by decide)).1

end InvIdx
